import Mathlib

/-!
Verification of the durable-nonce transaction system (solana-durable-transactions).

The development shallowly embeds the repository's transaction-building code
(`createNonceAccount`, `createDurableTransaction`, sign/serialize in
`src/test/index.ts` and the unnamed source parts) together with the
ledger-side nonce state machine, codec and base58 transport that the
repository exercises through `@solana/web3.js`.  Public keys, nonce values
and signatures are opaque naturals / lists of naturals; byte strings are
lists of naturals with an explicit `< 256` bound where it matters.
-/

namespace DurableNonce

/-- Public keys are opaque identifiers. -/
abbrev PubKey := Nat

/-- Nonce values (blockhash-sized opaque values). -/
abbrev NonceValue := Nat

/-- Signatures, modelled as byte lists. -/
abbrev Sig := List Nat

/-- Ledger constant from `@solana/web3.js`: lamports per SOL. -/
def LAMPORTS_PER_SOL : Nat := 1000000000

/-- Ledger constant from `@solana/web3.js`: byte size of a nonce account. -/
def NONCE_ACCOUNT_LENGTH : Nat := 80

/-- Opaque identifier standing for `SystemProgram.programId`. -/
def systemProgramId : PubKey := 0

/-- Decoded nonce-account state as returned by `NonceAccount.fromAccountData`
(address, current authority, current stored nonce value). -/
structure NonceAccount where
  address : PubKey
  authority : PubKey
  nonce : NonceValue
deriving DecidableEq, Repr

/-- The system-program instructions used by the repository:
`SystemProgram.createAccount`, `nonceInitialize`, `nonceAdvance`,
`nonceAuthorize` and `transfer`, with the fields the source passes to them. -/
inductive Instruction where
  | createAccount (fromPubkey newAccountPubkey : PubKey) (lamports space : Nat)
      (programId : PubKey)
  | nonceInitialize (noncePubkey authorizedPubkey : PubKey)
  | nonceAdvance (noncePubkey authorizedPubkey : PubKey)
  | nonceAuthorize (noncePubkey authorizedPubkey newAuthorizedPubkey : PubKey)
  | transfer (fromPubkey toPubkey : PubKey) (lamports : Nat)
deriving DecidableEq, Repr

/-- A transaction as the repository assembles it: fee payer, the
recent-blockhash slot (holding the pinned nonce for durable transactions),
the ordered instruction list, and signature slots (a slot is empty when that
signer has not signed yet, mirroring `requireAllSignatures: false`). -/
structure Transaction where
  feePayer : PubKey
  recentBlockhash : NonceValue
  instructions : List Instruction
  signatures : List (PubKey × Option Sig)
deriving DecidableEq, Repr

/-- Field-wise token encoding of one instruction (tag followed by its
fields), used both for the canonical message bytes and for serialization. -/
def encodeInstr : Instruction → List Nat
  | .createAccount f n lam sp pid => [0, f, n, lam, sp, pid]
  | .nonceInitialize np ap => [1, np, ap]
  | .nonceAdvance np ap => [2, np, ap]
  | .nonceAuthorize np ap newAp => [3, np, ap, newAp]
  | .transfer f t lam => [4, f, t, lam]

/-- Concatenated encoding of an instruction list. -/
def encodeInstrs : List Instruction → List Nat
  | [] => []
  | i :: is => encodeInstr i ++ encodeInstrs is

/-- Canonical message of a transaction: fee payer, pinned nonce and the full
instruction list (signatures are not part of the signed message). -/
def messageOf (tx : Transaction) : List Nat :=
  tx.feePayer :: tx.recentBlockhash :: encodeInstrs tx.instructions

/-- Modelled from the spec: ed25519 signing is deterministic, so a signature
is a pure function of the signing key and the message bytes. -/
def sigOf (key : PubKey) (msg : List Nat) : Sig :=
  key :: msg

/-- Translation of `durableTx.sign(...)` from the source: signing with a
signer list replaces the signature slots with one filled slot per signer,
each signature computed over the canonical message. -/
def Transaction.sign (tx : Transaction) (signers : List PubKey) : Transaction :=
  { tx with signatures := signers.map fun k => (k, some (sigOf k (messageOf tx))) }

/-- Keys whose signature slot holds a valid signature over the transaction's
canonical message; these are the signers the ledger recognizes. -/
def txSigners (tx : Transaction) : List PubKey :=
  (tx.signatures.filter fun p => decide (p.2 = some (sigOf p.1 (messageOf tx)))).map Prod.fst

/-- Translation of the durable-transaction builder (steps 1.2-1.5 of
`createDurableTransaction` in the source, also in `src/test/index.ts` lines
86-107): set the fee payer, pin the nonce account's stored nonce value into
the recent-blockhash slot, place the `nonceAdvance` instruction for the
nonce account (naming the given authority) at index 0, and append the
payload instructions after it.  The source instantiates the payload with a
single transfer; the payload is a parameter here, per spec section 4.2.
Pure construction, no network interaction. -/
def createDurableTransaction (feePayer : PubKey) (nonceAccount : NonceAccount)
    (nonceAuthority : PubKey) (payload : List Instruction) : Transaction :=
  { feePayer := feePayer
    recentBlockhash := nonceAccount.nonce
    instructions := Instruction.nonceAdvance nonceAccount.address nonceAuthority :: payload
    signatures := [] }

/-- Lamports the source funds a new nonce account with:
`0.0015 * LAMPORTS_PER_SOL` (a fixed constant in `createNonceAccount`). -/
def nonceFundingLamports : Nat := 15 * LAMPORTS_PER_SOL / 10000

/-- Modelled from the spec: the ledger-defined minimum rent-exempt balance
for an account of the given byte size (the quantity
`connection.getMinimumBalanceForRentExemption` would return; Solana rent
parameters: 3480 lamports per byte-year, 2-year exemption threshold,
128 bytes of account overhead). -/
def minimumBalanceForRentExemption (space : Nat) : Nat :=
  (space + 128) * 3480 * 2

/-- Translation of the instruction list `createNonceAccount` assembles in
the source: allocate the account (funded with the fixed constant, sized at
the nonce-account length, owned by the system program), then initialize the
nonce with the given authority. -/
def createNonceAccountInstructions (payer nonceAcct authority : PubKey) : List Instruction :=
  [Instruction.createAccount payer nonceAcct nonceFundingLamports NONCE_ACCOUNT_LENGTH
      systemProgramId,
   Instruction.nonceInitialize nonceAcct authority]

/-- Signer list the source passes to `sendAndConfirmTransaction` when
creating a nonce account: the funding payer and the new nonce account key. -/
def createNonceAccountSigners (payer nonceAcct : PubKey) : List PubKey :=
  [payer, nonceAcct]

/-- On-ledger state of one nonce account: its current authority and its
current stored nonce value. -/
structure NonceState where
  authority : PubKey
  value : NonceValue
deriving DecidableEq, Repr

/-- Modelled from the spec: the ledger state the repository's scenarios
touch, namely the nonce accounts (by address) and the lamport balances. -/
structure Ledger where
  nonceAccounts : PubKey → Option NonceState
  balances : PubKey → Nat

/-- Pointwise update of the nonce-account map at one address. -/
def setNonce (f : PubKey → Option NonceState) (k : PubKey) (ns : NonceState) :
    PubKey → Option NonceState :=
  fun x => if x = k then some ns else f x

/-- Pointwise debit of a balance map. -/
def debit (m : PubKey → Nat) (k : PubKey) (amt : Nat) : PubKey → Nat :=
  fun x => if x = k then m k - amt else m x

/-- Pointwise credit of a balance map. -/
def credit (m : PubKey → Nat) (k : PubKey) (amt : Nat) : PubKey → Nat :=
  fun x => if x = k then m k + amt else m x

/-- Modelled from the spec: a successful advance assigns a new value that
is always different from the previous one (ledger-guaranteed); modelled as
the successor. -/
def freshNonce (v : NonceValue) : NonceValue := v + 1

/-- Ledger state after the nonce account at `np` (currently in state `ns`)
advances: the stored value is replaced by a fresh one, authority unchanged. -/
def advanceNonceOf (L : Ledger) (np : PubKey) (ns : NonceState) : Ledger :=
  { L with nonceAccounts := setNonce L.nonceAccounts np ⟨ns.authority, freshNonce ns.value⟩ }

/-- Modelled from the spec: ledger-side execution of one instruction, given
the set of keys that signed the enclosing transaction.  A transfer moves
lamports when the source signed and has enough balance; a nonce advance or
authorize requires the account's current authority to be the named signer;
the two creation instructions are outside the executed scope of this spec
(section 1 non-goals) and fail. -/
def execInstr (signers : List PubKey) (L : Ledger) : Instruction → Option Ledger
  | .transfer f t lam =>
      if f ∈ signers ∧ lam ≤ L.balances f then
        some { L with balances := credit (debit L.balances f lam) t lam }
      else none
  | .nonceAdvance np ap =>
      match L.nonceAccounts np with
      | some ns =>
          if ns.authority = ap ∧ ap ∈ signers then some (advanceNonceOf L np ns)
          else none
      | none => none
  | .nonceAuthorize np ap newAp =>
      match L.nonceAccounts np with
      | some ns =>
          if ns.authority = ap ∧ ap ∈ signers then
            some { L with nonceAccounts := setNonce L.nonceAccounts np ⟨newAp, ns.value⟩ }
          else none
      | none => none
  | _ => none

/-- Sequential execution of the payload instructions; the first failure
aborts the remainder. -/
def execPayload (signers : List PubKey) : Ledger → List Instruction → Option Ledger
  | L, [] => some L
  | L, i :: is =>
      match execInstr signers L i with
      | some L' => execPayload signers L' is
      | none => none

/-- Terminal classification of a submission, from the spec's state machine
(section 4.4): `Confirmed` (advance and payload succeeded),
`ConfirmedFailedPayload` (advance succeeded, payload failed, nonce spent),
`RejectedNoAdvance` (advance failed, ledger untouched), and
`PreflightRejected` (local preflight simulation refused to send). -/
inductive Outcome where
  | Confirmed
  | ConfirmedFailedPayload
  | RejectedNoAdvance
  | PreflightRejected
deriving DecidableEq, Repr

/-- Modelled from the spec: ledger-side execution of a submitted durable
transaction.  The advance instruction at index 0 is checked against the
pinned nonce and the account's current authority (which must have signed);
if that check fails the whole transaction is rejected and the ledger is
unchanged.  If it succeeds the nonce unconditionally advances, then the
remaining instructions run; a payload failure yields
`ConfirmedFailedPayload` with only the advance retained. -/
def ledgerExecute (L : Ledger) (tx : Transaction) : Outcome × Ledger :=
  match tx.instructions with
  | Instruction.nonceAdvance np ap :: payload =>
      match L.nonceAccounts np with
      | some ns =>
          if ns.value = tx.recentBlockhash ∧ ns.authority = ap ∧ ap ∈ txSigners tx then
            match execPayload (txSigners tx) (advanceNonceOf L np ns) payload with
            | some L2 => (Outcome.Confirmed, L2)
            | none => (Outcome.ConfirmedFailedPayload, advanceNonceOf L np ns)
          else (Outcome.RejectedNoAdvance, L)
      | none => (Outcome.RejectedNoAdvance, L)
  | _ => (Outcome.RejectedNoAdvance, L)

/-- Modelled from the spec: `sendAndConfirmRawTransaction` submission.  With
`skipPreflight = true` the transaction goes straight to the ledger.
Otherwise a local preflight simulation runs first: a simulated advance
failure surfaces as `RejectedNoAdvance` and a simulated payload failure as
`PreflightRejected`; in both cases the transaction never reaches the ledger
and the ledger state is unchanged. -/
def submit (L : Ledger) (tx : Transaction) (skipPreflight : Bool) : Outcome × Ledger :=
  if skipPreflight then ledgerExecute L tx
  else
    match ledgerExecute L tx with
    | (Outcome.Confirmed, L') => (Outcome.Confirmed, L')
    | (Outcome.RejectedNoAdvance, _) => (Outcome.RejectedNoAdvance, L)
    | _ => (Outcome.PreflightRejected, L)

/-- Token encoding of one signature slot: an empty slot is written as the
well-known placeholder (tag 0), a filled slot as tag 1 with the
length-prefixed signature bytes. -/
def encodeSlot : PubKey × Option Sig → List Nat
  | (k, none) => [k, 0]
  | (k, some s) => k :: 1 :: s.length :: s

/-- Concatenated encoding of the signature slots. -/
def encodeSlots : List (PubKey × Option Sig) → List Nat
  | [] => []
  | p :: ps => encodeSlot p ++ encodeSlots ps

/-- Modelled from the spec: the canonical wire format of a transaction
(section 6): fee payer, pinned nonce in the recent-blockhash slot,
signature slots (placeholder-filled when incomplete), and the instruction
list with the advance instruction first. -/
def freezeRaw (tx : Transaction) : List Nat :=
  tx.feePayer :: tx.recentBlockhash :: tx.signatures.length :: encodeSlots tx.signatures
    ++ tx.instructions.length :: encodeInstrs tx.instructions

/-- Translation of `tx.serialize({ requireAllSignatures })`: when all
signatures are required, serialization of a transaction with an empty slot
fails; with `requireAllSignatures = false` the placeholder-filled bytes are
produced. -/
def freeze (tx : Transaction) (requireAllSignatures : Bool) : Option (List Nat) :=
  if requireAllSignatures && tx.signatures.any fun p => p.2.isNone then none
  else some (freezeRaw tx)

/-- Reads exactly `n` tokens from the stream, returning them with the rest. -/
def readN : Nat → List Nat → Option (List Nat × List Nat)
  | 0, ts => some ([], ts)
  | _ + 1, [] => none
  | n + 1, t :: ts =>
      match readN n ts with
      | some (xs, r) => some (t :: xs, r)
      | none => none

/-- Parses `n` signature slots from the stream. -/
def decodeSlots : Nat → List Nat → Option (List (PubKey × Option Sig) × List Nat)
  | 0, ts => some ([], ts)
  | n + 1, k :: 0 :: ts =>
      match decodeSlots n ts with
      | some (ps, r) => some ((k, none) :: ps, r)
      | none => none
  | n + 1, k :: 1 :: len :: ts =>
      match readN len ts with
      | some (s, ts') =>
          match decodeSlots n ts' with
          | some (ps, r) => some ((k, some s) :: ps, r)
          | none => none
      | none => none
  | _ + 1, _ => none

/-- Parses one instruction from the stream. -/
def decodeInstr : List Nat → Option (Instruction × List Nat)
  | 0 :: f :: n :: lam :: sp :: pid :: ts => some (.createAccount f n lam sp pid, ts)
  | 1 :: np :: ap :: ts => some (.nonceInitialize np ap, ts)
  | 2 :: np :: ap :: ts => some (.nonceAdvance np ap, ts)
  | 3 :: np :: ap :: newAp :: ts => some (.nonceAuthorize np ap newAp, ts)
  | 4 :: f :: t :: lam :: ts => some (.transfer f t lam, ts)
  | _ => none

/-- Parses `n` instructions from the stream. -/
def decodeInstrs : Nat → List Nat → Option (List Instruction × List Nat)
  | 0, ts => some ([], ts)
  | n + 1, ts =>
      match decodeInstr ts with
      | some (i, ts') =>
          match decodeInstrs n ts' with
          | some (is, r) => some (i :: is, r)
          | none => none
      | none => none

/-- Modelled from the spec: deserialization (`Transaction.from`), the
inverse of `freezeRaw`; fails on any malformed encoding, including
trailing garbage. -/
def thaw : List Nat → Option Transaction
  | fp :: bh :: nS :: ts =>
      match decodeSlots nS ts with
      | some (slots, nI :: ts2) =>
          match decodeInstrs nI ts2 with
          | some (instrs, []) => some ⟨fp, bh, instrs, slots⟩
          | _ => none
      | _ => none
  | _ => none

/-- Errors of the account-fetch path.  `AccountNotFound` is the typed error
named by the spec; `TypeErrorNullAssert` models the untyped runtime error a
JavaScript non-null assertion produces on a missing account;
`MalformedData` models a `NonceAccount.fromAccountData` decode failure. -/
inductive FetchError where
  | AccountNotFound
  | TypeErrorNullAssert
  | MalformedData
deriving DecidableEq, Repr

/-- Modelled from the spec: `NonceAccount.fromAccountData` decodes the
fixed 80-byte nonce-account layout (version u32, state u32, 32-byte
authority, 32-byte nonce value, fee u64); anything else is malformed. -/
def nonceAccountFromAccountData (address : PubKey) (data : List Nat) :
    Except FetchError NonceAccount :=
  if data.length = NONCE_ACCOUNT_LENGTH ∧ ∀ x ∈ data, x < 256 then
    Except.ok
      { address := address
        authority := ((data.drop 8).take 32).foldr (fun d acc => d + 256 * acc) 0
        nonce := ((data.drop 40).take 32).foldr (fun d acc => d + 256 * acc) 0 }
  else Except.error FetchError.MalformedData

/-- Translation of the fetch path of `createNonceAccount` in the source:
`connection.getAccountInfo` followed by the non-null assertion
`accountInfo!.data` and `NonceAccount.fromAccountData`.  When the address
holds no account the non-null assertion blows up with an untyped runtime
error, modelled as `TypeErrorNullAssert`. -/
def fetchNonceAccount (getAccountInfo : PubKey → Option (List Nat)) (address : PubKey) :
    Except FetchError NonceAccount :=
  match getAccountInfo address with
  | none => Except.error FetchError.TypeErrorNullAssert
  | some d => nonceAccountFromAccountData address d

/-- Build-sign-serialize pipeline as the source performs it (steps 1.2-1.7
of `createDurableTransaction`): build the durable transaction, sign it with
the signer set, serialize it. -/
def buildSignSerialize (feePayer : PubKey) (nonceAccount : NonceAccount)
    (nonceAuthority : PubKey) (payload : List Instruction) (signers : List PubKey) :
    List Nat :=
  freezeRaw ((createDurableTransaction feePayer nonceAccount nonceAuthority payload).sign signers)

/-- Little-endian base-`b` digits of `n` (minimal representation: no
trailing zero digit); empty for `n = 0` or a degenerate base. -/
def natToDigitsLE (b n : Nat) : List Nat :=
  if h : 2 ≤ b ∧ n ≠ 0 then n % b :: natToDigitsLE b (n / b) else []
termination_by n
decreasing_by exact Nat.div_lt_self (Nat.pos_of_ne_zero h.2) h.1

/-- Value of a little-endian digit list in base `b`. -/
def digitsToNatLE (b : Nat) (ds : List Nat) : Nat :=
  ds.foldr (fun d acc => d + b * acc) 0

/-- Big-endian base-`b` digits of `n`. -/
def natToDigitsBE (b n : Nat) : List Nat :=
  (natToDigitsLE b n).reverse

/-- Value of a big-endian digit list in base `b`. -/
def digitsToNatBE (b : Nat) (ds : List Nat) : Nat :=
  digitsToNatLE b ds.reverse

/-- Holds when the last digit of a little-endian digit list is nonzero,
i.e. the representation is minimal. -/
def lastNZ : List Nat → Bool
  | [] => true
  | [d] => decide (d ≠ 0)
  | _ :: d :: ds => lastNZ (d :: ds)

/-- Holds when the first element of a big-endian digit (or byte) list is
nonzero. -/
def headNZ : List Nat → Bool
  | [] => true
  | d :: _ => decide (d ≠ 0)

/-- Number of leading zero bytes, as counted by the bs58 algorithm. -/
def countLeading0 : List Nat → Nat
  | [] => 0
  | d :: ds => if d = 0 then countLeading0 ds + 1 else 0

/-- The list with its leading zero bytes removed. -/
def stripLeading0 : List Nat → List Nat
  | [] => []
  | d :: ds => if d = 0 then stripLeading0 ds else d :: ds

/-- Modelled from the spec: the bs58 alphabet used by the `base58`
encode/decode calls of the source. -/
def base58Alphabet : List Char :=
  "123456789ABCDEFGHJKLMNPQRSTUVWXYZabcdefghijkmnopqrstuvwxyz".toList

/-- Character for a base58 digit. -/
def charOfDigit (d : Nat) : Char :=
  base58Alphabet.getD d '1'

/-- Digit for a base58 character; fails on characters outside the
alphabet, as the bs58 decoder does. -/
def digitOfChar (c : Char) : Option Nat :=
  if base58Alphabet.indexOf c < 58 then some (base58Alphabet.indexOf c) else none

/-- Modelled from the spec: `base58.encode` from the bs58 library.  Each
leading zero byte becomes the character for digit zero; the remaining
bytes, read as a big-endian number, become its big-endian base-58 digits. -/
def encode58 (bs : List Nat) : List Char :=
  List.replicate (countLeading0 bs) '1'
    ++ (natToDigitsBE 58 (digitsToNatBE 256 (stripLeading0 bs))).map charOfDigit

/-- Maps every character of the string to its digit; fails if any character
is outside the alphabet. -/
def digitsOfChars : List Char → Option (List Nat)
  | [] => some []
  | c :: cs =>
      match digitOfChar c, digitsOfChars cs with
      | some d, some ds => some (d :: ds)
      | _, _ => none

/-- Modelled from the spec: `base58.decode` from the bs58 library, the
inverse of `encode58`: leading zero digits become zero bytes and the
remaining digits, read as a big-endian base-58 number, become its
big-endian base-256 bytes. -/
def decode58 (cs : List Char) : Option (List Nat) :=
  match digitsOfChars cs with
  | none => none
  | some ds =>
      some (List.replicate (countLeading0 ds) 0
        ++ natToDigitsBE 256 (digitsToNatBE 58 (stripLeading0 ds)))

/-- One ledger transition: either some signed instruction executes (e.g. a
plain transaction advances or reauthorizes the nonce), or some transaction
is submitted. -/
def LedgerStep (L L' : Ledger) : Prop :=
  (∃ signers i, execInstr signers L i = some L') ∨ ∃ tx b, (submit L tx b).2 = L'

/-- Reflexive-transitive closure of ledger transitions: every ledger state
the system can reach from a given one. -/
def ReachableLedger : Ledger → Ledger → Prop :=
  Relation.ReflTransGen LedgerStep

/-- Concrete ledger for the witnesses: one nonce account at address 2 with
authority 3 and stored nonce 100; the payer (key 1) holds 50 lamports. -/
def testLedger : Ledger :=
  { nonceAccounts := fun k => if k = 2 then some ⟨3, 100⟩ else none
    balances := fun k => if k = 1 then 50 else 0 }

/-- Witness transaction whose transfer exceeds the payer's balance. -/
def overspendTx : Transaction :=
  (createDurableTransaction 1 ⟨2, 3, 100⟩ 3 [Instruction.transfer 1 4 1000]).sign [1, 3]

/-- Witness transaction whose nonce authority (key 3) did not sign. -/
def unsignedAuthTx : Transaction :=
  (createDurableTransaction 1 ⟨2, 3, 100⟩ 3 [Instruction.transfer 1 4 10]).sign [1]

/-- Witness transaction pinned to a nonce value (777) that does not match
the ledger's stored value (100). -/
def staleTx : Transaction :=
  (createDurableTransaction 1 ⟨2, 3, 777⟩ 3 [Instruction.transfer 1 4 10]).sign [1, 3]

/-- Witness transaction whose advance instruction names the payer (key 1)
as authority and is signed by the payer, while the ledger's stored
authority is key 3. -/
def wrongAuthTx : Transaction :=
  (createDurableTransaction 1 ⟨2, 9, 100⟩ 1 [Instruction.transfer 1 4 10]).sign [1]

/-! Helper lemmas about the submission state machine. -/

theorem ledgerExecute_of_ins (L : Ledger) (tx : Transaction) (np ap : PubKey)
    (payload : List Instruction)
    (hins : tx.instructions = Instruction.nonceAdvance np ap :: payload) :
    ledgerExecute L tx =
      match L.nonceAccounts np with
      | some ns =>
          if ns.value = tx.recentBlockhash ∧ ns.authority = ap ∧ ap ∈ txSigners tx then
            match execPayload (txSigners tx) (advanceNonceOf L np ns) payload with
            | some L2 => (Outcome.Confirmed, L2)
            | none => (Outcome.ConfirmedFailedPayload, advanceNonceOf L np ns)
          else (Outcome.RejectedNoAdvance, L)
      | none => (Outcome.RejectedNoAdvance, L) := by
  unfold ledgerExecute
  rw [hins]

theorem ledgerExecute_reject_stale (L : Ledger) (tx : Transaction) (np ap : PubKey)
    (payload : List Instruction) (ns : NonceState)
    (hins : tx.instructions = Instruction.nonceAdvance np ap :: payload)
    (hacct : L.nonceAccounts np = some ns)
    (hstale : ns.value ≠ tx.recentBlockhash) :
    ledgerExecute L tx = (Outcome.RejectedNoAdvance, L) := by
  rw [ledgerExecute_of_ins L tx np ap payload hins]
  simp only [hacct]
  rw [if_neg]
  intro hc
  exact hstale hc.1

theorem ledgerExecute_reject_noauth (L : Ledger) (tx : Transaction) (np ap : PubKey)
    (payload : List Instruction) (ns : NonceState)
    (hins : tx.instructions = Instruction.nonceAdvance np ap :: payload)
    (hacct : L.nonceAccounts np = some ns)
    (hnosig : ns.authority ∉ txSigners tx) :
    ledgerExecute L tx = (Outcome.RejectedNoAdvance, L) := by
  rw [ledgerExecute_of_ins L tx np ap payload hins]
  simp only [hacct]
  rw [if_neg]
  intro hc
  exact hnosig (by rw [hc.2.1]; exact hc.2.2)

theorem ledgerExecute_failed_payload (L : Ledger) (tx : Transaction) (np ap : PubKey)
    (payload : List Instruction) (ns : NonceState)
    (hins : tx.instructions = Instruction.nonceAdvance np ap :: payload)
    (hacct : L.nonceAccounts np = some ns)
    (hpin : ns.value = tx.recentBlockhash)
    (hauth : ns.authority = ap)
    (hsig : ap ∈ txSigners tx)
    (hfail : execPayload (txSigners tx) (advanceNonceOf L np ns) payload = none) :
    ledgerExecute L tx = (Outcome.ConfirmedFailedPayload, advanceNonceOf L np ns) := by
  rw [ledgerExecute_of_ins L tx np ap payload hins]
  simp only [hacct]
  rw [if_pos ⟨hpin, hauth, hsig⟩]
  simp only [hfail]

theorem ledgerExecute_confirmed (L : Ledger) (tx : Transaction) (np ap : PubKey)
    (payload : List Instruction) (ns : NonceState) (L2 : Ledger)
    (hins : tx.instructions = Instruction.nonceAdvance np ap :: payload)
    (hacct : L.nonceAccounts np = some ns)
    (hpin : ns.value = tx.recentBlockhash)
    (hauth : ns.authority = ap)
    (hsig : ap ∈ txSigners tx)
    (hsucc : execPayload (txSigners tx) (advanceNonceOf L np ns) payload = some L2) :
    ledgerExecute L tx = (Outcome.Confirmed, L2) := by
  rw [ledgerExecute_of_ins L tx np ap payload hins]
  simp only [hacct]
  rw [if_pos ⟨hpin, hauth, hsig⟩]
  simp only [hsucc]

theorem submit_true_eq (L : Ledger) (tx : Transaction) :
    submit L tx true = ledgerExecute L tx := rfl

theorem submit_false_eq (L : Ledger) (tx : Transaction) :
    submit L tx false =
      match ledgerExecute L tx with
      | (Outcome.Confirmed, L') => (Outcome.Confirmed, L')
      | (Outcome.RejectedNoAdvance, _) => (Outcome.RejectedNoAdvance, L)
      | _ => (Outcome.PreflightRejected, L) := rfl

theorem submit_reject_of_reject (L : Ledger) (tx : Transaction) (b : Bool)
    (h : ledgerExecute L tx = (Outcome.RejectedNoAdvance, L)) :
    submit L tx b = (Outcome.RejectedNoAdvance, L) := by
  cases b
  · rw [submit_false_eq, h]
  · rw [submit_true_eq, h]

/-! Monotonicity: a nonce account's stored value never decreases, and the
account is never deleted, under any ledger transition. -/

theorem advanceNonceOf_value_mono (L : Ledger) (np0 : PubKey) (ns0 : NonceState)
    (h0 : L.nonceAccounts np0 = some ns0) (np : PubKey) (ns : NonceState)
    (hacct : L.nonceAccounts np = some ns) :
    ∃ ns', (advanceNonceOf L np0 ns0).nonceAccounts np = some ns' ∧ ns.value ≤ ns'.value := by
  by_cases hnp : np = np0
  · subst hnp
    rw [hacct] at h0
    injection h0 with h0
    subst h0
    exact ⟨⟨ns.authority, freshNonce ns.value⟩, by simp [advanceNonceOf, setNonce], Nat.le_succ _⟩
  · exact ⟨ns, by rw [show (advanceNonceOf L np0 ns0).nonceAccounts np = L.nonceAccounts np by
      simp [advanceNonceOf, setNonce, hnp]]; exact hacct, le_refl _⟩

theorem execInstr_value_mono (signers : List PubKey) (L L' : Ledger) (i : Instruction)
    (h : execInstr signers L i = some L') (np : PubKey) (ns : NonceState)
    (hacct : L.nonceAccounts np = some ns) :
    ∃ ns', L'.nonceAccounts np = some ns' ∧ ns.value ≤ ns'.value := by
  cases i with
  | createAccount f n lam sp pid => exact Option.noConfusion h
  | nonceInitialize np0 ap => exact Option.noConfusion h
  | transfer f t lam =>
      have h' : (if f ∈ signers ∧ lam ≤ L.balances f then
          some { L with balances := credit (debit L.balances f lam) t lam }
          else none) = some L' := h
      by_cases hc : f ∈ signers ∧ lam ≤ L.balances f
      · rw [if_pos hc] at h'
        injection h' with h'
        subst h'
        exact ⟨ns, hacct, le_refl _⟩
      · rw [if_neg hc] at h'
        exact Option.noConfusion h'
  | nonceAdvance np0 ap =>
      have h' : (match L.nonceAccounts np0 with
          | some ns0 =>
              if ns0.authority = ap ∧ ap ∈ signers then some (advanceNonceOf L np0 ns0)
              else none
          | none => none) = some L' := h
      cases h0 : L.nonceAccounts np0 with
      | none => rw [h0] at h'; exact Option.noConfusion h'
      | some ns0 =>
          rw [h0] at h'
          have h'' : (if ns0.authority = ap ∧ ap ∈ signers then some (advanceNonceOf L np0 ns0)
              else none) = some L' := h'
          by_cases hc : ns0.authority = ap ∧ ap ∈ signers
          · rw [if_pos hc] at h''
            injection h'' with h''
            subst h''
            exact advanceNonceOf_value_mono L np0 ns0 h0 np ns hacct
          · rw [if_neg hc] at h''
            exact Option.noConfusion h''
  | nonceAuthorize np0 ap newAp =>
      have h' : (match L.nonceAccounts np0 with
          | some ns0 =>
              if ns0.authority = ap ∧ ap ∈ signers then
                some { L with nonceAccounts := setNonce L.nonceAccounts np0 ⟨newAp, ns0.value⟩ }
              else none
          | none => none) = some L' := h
      cases h0 : L.nonceAccounts np0 with
      | none => rw [h0] at h'; exact Option.noConfusion h'
      | some ns0 =>
          rw [h0] at h'
          have h'' : (if ns0.authority = ap ∧ ap ∈ signers then
              some { L with nonceAccounts := setNonce L.nonceAccounts np0 ⟨newAp, ns0.value⟩ }
              else none) = some L' := h'
          by_cases hc : ns0.authority = ap ∧ ap ∈ signers
          · rw [if_pos hc] at h''
            injection h'' with h''
            subst h''
            by_cases hnp : np = np0
            · subst hnp
              rw [hacct] at h0
              injection h0 with h0
              subst h0
              exact ⟨⟨newAp, ns.value⟩, by simp [setNonce], le_refl _⟩
            · exact ⟨ns, by simp only [setNonce]; rw [if_neg hnp]; exact hacct, le_refl _⟩
          · rw [if_neg hc] at h''
            exact Option.noConfusion h''

theorem execPayload_value_mono (signers : List PubKey) (payload : List Instruction) :
    ∀ (L L' : Ledger), execPayload signers L payload = some L' →
    ∀ (np : PubKey) (ns : NonceState), L.nonceAccounts np = some ns →
    ∃ ns', L'.nonceAccounts np = some ns' ∧ ns.value ≤ ns'.value := by
  induction payload with
  | nil =>
      intro L L' h np ns hacct
      have h' : some L = some L' := h
      injection h' with h'
      subst h'
      exact ⟨ns, hacct, le_refl _⟩
  | cons i is ih =>
      intro L L' h np ns hacct
      have h' : (match execInstr signers L i with
          | some M => execPayload signers M is
          | none => none) = some L' := h
      cases hE : execInstr signers L i with
      | none => rw [hE] at h'; exact Option.noConfusion h'
      | some M =>
          rw [hE] at h'
          have h'' : execPayload signers M is = some L' := h'
          obtain ⟨ns1, h1, le1⟩ := execInstr_value_mono signers L M i hE np ns hacct
          obtain ⟨ns2, h2, le2⟩ := ih M L' h'' np ns1 h1
          exact ⟨ns2, h2, le1.trans le2⟩

theorem ledgerExecute_value_mono (L : Ledger) (tx : Transaction) (np : PubKey) (ns : NonceState)
    (hacct : L.nonceAccounts np = some ns) :
    ∃ ns', (ledgerExecute L tx).2.nonceAccounts np = some ns' ∧ ns.value ≤ ns'.value := by
  unfold ledgerExecute
  split
  · rename_i np0 ap payload _
    split
    · rename_i ns0 h0
      split
      · split
        · rename_i L2 hP
          obtain ⟨ns1, h1, le1⟩ := advanceNonceOf_value_mono L np0 ns0 h0 np ns hacct
          obtain ⟨ns2, h2, le2⟩ := execPayload_value_mono (txSigners tx) payload _ L2 hP np ns1 h1
          exact ⟨ns2, h2, le1.trans le2⟩
        · exact advanceNonceOf_value_mono L np0 ns0 h0 np ns hacct
      · exact ⟨ns, hacct, le_refl _⟩
    · exact ⟨ns, hacct, le_refl _⟩
  · exact ⟨ns, hacct, le_refl _⟩

theorem submit_value_mono (L : Ledger) (tx : Transaction) (b : Bool) (np : PubKey)
    (ns : NonceState) (hacct : L.nonceAccounts np = some ns) :
    ∃ ns', (submit L tx b).2.nonceAccounts np = some ns' ∧ ns.value ≤ ns'.value := by
  cases b
  · rw [submit_false_eq]
    rcases hE : ledgerExecute L tx with ⟨o, M⟩
    have hm := ledgerExecute_value_mono L tx np ns hacct
    rw [hE] at hm
    cases o
    · exact hm
    · exact ⟨ns, hacct, le_refl _⟩
    · exact ⟨ns, hacct, le_refl _⟩
    · exact ⟨ns, hacct, le_refl _⟩
  · exact ledgerExecute_value_mono L tx np ns hacct

theorem ledgerStep_value_mono (L L' : Ledger) (h : LedgerStep L L') (np : PubKey)
    (ns : NonceState) (hacct : L.nonceAccounts np = some ns) :
    ∃ ns', L'.nonceAccounts np = some ns' ∧ ns.value ≤ ns'.value := by
  rcases h with ⟨signers, i, hE⟩ | ⟨tx, b, hS⟩
  · exact execInstr_value_mono signers L L' i hE np ns hacct
  · rw [← hS]
    exact submit_value_mono L tx b np ns hacct

theorem reachable_value_mono (L L' : Ledger) (h : ReachableLedger L L') (np : PubKey)
    (ns : NonceState) (hacct : L.nonceAccounts np = some ns) :
    ∃ ns', L'.nonceAccounts np = some ns' ∧ ns.value ≤ ns'.value := by
  have h' : Relation.ReflTransGen LedgerStep L L' := h
  clear h
  induction h' with
  | refl => exact ⟨ns, hacct, le_refl _⟩
  | tail _ hstep ih =>
      obtain ⟨ns1, h1, le1⟩ := ih
      obtain ⟨ns2, h2, le2⟩ := ledgerStep_value_mono _ _ hstep np ns1 h1
      exact ⟨ns2, h2, le1.trans le2⟩

theorem ledgerExecute_reject_wrongname (L : Ledger) (tx : Transaction) (np ap : PubKey)
    (payload : List Instruction) (ns : NonceState)
    (hins : tx.instructions = Instruction.nonceAdvance np ap :: payload)
    (hacct : L.nonceAccounts np = some ns)
    (hname : ns.authority ≠ ap) :
    ledgerExecute L tx = (Outcome.RejectedNoAdvance, L) := by
  rw [ledgerExecute_of_ins L tx np ap payload hins]
  simp only [hacct]
  rw [if_neg]
  intro hc
  exact hname hc.2.1

/-- C1: for every submitted durable transaction whose advance instruction
at index 0 succeeds on the ledger but whose subsequent payload fails, the
outcome is `ConfirmedFailedPayload`, the nonce account's stored value after
the submission strictly differs from its value before, and from any ledger
state reachable afterwards the same serialized transaction is always
rejected (`RejectedNoAdvance`, ledger unchanged), so it can never be
submitted again. -/
theorem nonce_advances_on_payload_failure (L : Ledger) (tx : Transaction) (np ap : PubKey)
    (payload : List Instruction) (ns : NonceState)
    (hins : tx.instructions = Instruction.nonceAdvance np ap :: payload)
    (hacct : L.nonceAccounts np = some ns)
    (hpin : ns.value = tx.recentBlockhash)
    (hauth : ns.authority = ap)
    (hsig : ap ∈ txSigners tx)
    (hfail : execPayload (txSigners tx) (advanceNonceOf L np ns) payload = none) :
    (submit L tx true).1 = Outcome.ConfirmedFailedPayload ∧
    ((submit L tx true).2.nonceAccounts np).map NonceState.value ≠
      (L.nonceAccounts np).map NonceState.value ∧
    ∀ L2 : Ledger, ReachableLedger (submit L tx true).2 L2 →
      (submit L2 tx true).1 = Outcome.RejectedNoAdvance ∧ (submit L2 tx true).2 = L2 := by
  have hE := ledgerExecute_failed_payload L tx np ap payload ns hins hacct hpin hauth hsig hfail
  have hsub : submit L tx true = (Outcome.ConfirmedFailedPayload, advanceNonceOf L np ns) := by
    rw [submit_true_eq, hE]
  have hadv : (advanceNonceOf L np ns).nonceAccounts np =
      some ⟨ns.authority, freshNonce ns.value⟩ := by
    simp [advanceNonceOf, setNonce]
  refine ⟨by rw [hsub], ?_, ?_⟩
  · rw [hsub, hadv, hacct]
    intro hq
    injection hq with hq
    exact Nat.succ_ne_self ns.value hq
  · intro L2 hreach
    rw [hsub] at hreach
    obtain ⟨ns2, h2, le2⟩ := reachable_value_mono _ _ hreach np _ hadv
    have hstale : ns2.value ≠ tx.recentBlockhash := by
      intro hq
      have hlt : ns.value < ns2.value := Nat.lt_of_lt_of_le (Nat.lt_succ_self _) le2
      rw [hq, ← hpin] at hlt
      exact lt_irrefl _ hlt
    have hR := ledgerExecute_reject_stale L2 tx np ap payload ns2 hins h2 hstale
    exact ⟨by rw [submit_true_eq, hR], by rw [submit_true_eq, hR]⟩

theorem nonce_advances_on_payload_failure_witness :
    (submit testLedger overspendTx true).1 = Outcome.ConfirmedFailedPayload ∧
    ((submit testLedger overspendTx true).2.nonceAccounts 2).map NonceState.value ≠
      (testLedger.nonceAccounts 2).map NonceState.value ∧
    ∀ L2 : Ledger, ReachableLedger (submit testLedger overspendTx true).2 L2 →
      (submit L2 overspendTx true).1 = Outcome.RejectedNoAdvance ∧
      (submit L2 overspendTx true).2 = L2 :=
  nonce_advances_on_payload_failure testLedger overspendTx 2 3
    [Instruction.transfer 1 4 1000] ⟨3, 100⟩ rfl rfl rfl rfl (by decide) rfl

/-- C2: a submitted durable transaction whose advance instruction fails
because the nonce account's current authority did not sign is rejected as
`RejectedNoAdvance` independently of the payload and of preflight, and the
nonce account's stored value is unchanged. -/
theorem rejected_when_authority_not_signed (L : Ledger) (tx : Transaction) (np ap : PubKey)
    (payload : List Instruction) (ns : NonceState) (b : Bool)
    (hins : tx.instructions = Instruction.nonceAdvance np ap :: payload)
    (hacct : L.nonceAccounts np = some ns)
    (hnosig : ns.authority ∉ txSigners tx) :
    submit L tx b = (Outcome.RejectedNoAdvance, L) ∧
    ((submit L tx b).2.nonceAccounts np).map NonceState.value =
      (L.nonceAccounts np).map NonceState.value := by
  have hR := ledgerExecute_reject_noauth L tx np ap payload ns hins hacct hnosig
  have hs := submit_reject_of_reject L tx b hR
  exact ⟨hs, by rw [hs]⟩

theorem rejected_when_authority_not_signed_witness :
    submit testLedger unsignedAuthTx true = (Outcome.RejectedNoAdvance, testLedger) ∧
    ((submit testLedger unsignedAuthTx true).2.nonceAccounts 2).map NonceState.value =
      (testLedger.nonceAccounts 2).map NonceState.value :=
  rejected_when_authority_not_signed testLedger unsignedAuthTx 2 3
    [Instruction.transfer 1 4 10] ⟨3, 100⟩ true rfl rfl (by decide)

/-- C3: a durable transaction pinned to a nonce value that no longer
matches the nonce account's current stored value is always rejected as
`RejectedNoAdvance`, and the stored value is unchanged by the attempt. -/
theorem rejected_when_nonce_stale (L : Ledger) (tx : Transaction) (np ap : PubKey)
    (payload : List Instruction) (ns : NonceState) (b : Bool)
    (hins : tx.instructions = Instruction.nonceAdvance np ap :: payload)
    (hacct : L.nonceAccounts np = some ns)
    (hstale : ns.value ≠ tx.recentBlockhash) :
    submit L tx b = (Outcome.RejectedNoAdvance, L) ∧
    ((submit L tx b).2.nonceAccounts np).map NonceState.value =
      (L.nonceAccounts np).map NonceState.value := by
  have hR := ledgerExecute_reject_stale L tx np ap payload ns hins hacct hstale
  have hs := submit_reject_of_reject L tx b hR
  exact ⟨hs, by rw [hs]⟩

theorem rejected_when_nonce_stale_witness :
    submit testLedger staleTx true = (Outcome.RejectedNoAdvance, testLedger) ∧
    ((submit testLedger staleTx true).2.nonceAccounts 2).map NonceState.value =
      (testLedger.nonceAccounts 2).map NonceState.value :=
  rejected_when_nonce_stale testLedger staleTx 2 3
    [Instruction.transfer 1 4 10] ⟨3, 100⟩ true rfl rfl (by decide)

/-- C4: a payload-failing durable transaction submitted with
`skipPreflight = false` (the default) is rejected by local preflight
simulation before reaching the ledger and the nonce does not advance; the
`ConfirmedFailedPayload` outcome is observable exactly when
`skipPreflight = true`. -/
theorem skip_preflight_required_for_failed_payload (L : Ledger) (tx : Transaction)
    (np ap : PubKey) (payload : List Instruction) (ns : NonceState)
    (hins : tx.instructions = Instruction.nonceAdvance np ap :: payload)
    (hacct : L.nonceAccounts np = some ns)
    (hpin : ns.value = tx.recentBlockhash)
    (hauth : ns.authority = ap)
    (hsig : ap ∈ txSigners tx)
    (hfail : execPayload (txSigners tx) (advanceNonceOf L np ns) payload = none) :
    submit L tx false = (Outcome.PreflightRejected, L) ∧
    (submit L tx true).1 = Outcome.ConfirmedFailedPayload ∧
    ∀ b : Bool, (submit L tx b).1 = Outcome.ConfirmedFailedPayload → b = true := by
  have hE := ledgerExecute_failed_payload L tx np ap payload ns hins hacct hpin hauth hsig hfail
  have h1 : submit L tx false = (Outcome.PreflightRejected, L) := by
    rw [submit_false_eq, hE]
  refine ⟨h1, by rw [submit_true_eq, hE], ?_⟩
  intro b hb
  cases b
  · rw [h1] at hb
    exact Outcome.noConfusion hb
  · rfl

theorem skip_preflight_required_for_failed_payload_witness :
    submit testLedger overspendTx false = (Outcome.PreflightRejected, testLedger) ∧
    (submit testLedger overspendTx true).1 = Outcome.ConfirmedFailedPayload ∧
    ∀ b : Bool, (submit testLedger overspendTx b).1 = Outcome.ConfirmedFailedPayload →
      b = true :=
  skip_preflight_required_for_failed_payload testLedger overspendTx 2 3
    [Instruction.transfer 1 4 1000] ⟨3, 100⟩ rfl rfl rfl rfl (by decide) rfl

/-- C7: a durable transaction whose advance instruction names authority `B`
and carries `B`'s signature while the account's authority is `A` is
rejected with the ledger unchanged; after the authority is reassigned from
`A` to `B` by an authorize instruction, resubmitting the very same
transaction succeeds (`Confirmed`). -/
theorem resubmit_after_authority_rotation (L : Ledger) (tx : Transaction) (np A B : PubKey)
    (v : NonceValue) (payload : List Instruction) (sAuth : List PubKey)
    (hins : tx.instructions = Instruction.nonceAdvance np B :: payload)
    (hacct : L.nonceAccounts np = some ⟨A, v⟩)
    (hpin : v = tx.recentBlockhash)
    (hAB : A ≠ B)
    (hsigB : B ∈ txSigners tx)
    (hA : A ∈ sAuth)
    (hpay : ∃ Lf, execPayload (txSigners tx)
        (advanceNonceOf ⟨setNonce L.nonceAccounts np ⟨B, v⟩, L.balances⟩ np ⟨B, v⟩) payload
        = some Lf) :
    submit L tx true = (Outcome.RejectedNoAdvance, L) ∧
    execInstr sAuth L (Instruction.nonceAuthorize np A B)
      = some ⟨setNonce L.nonceAccounts np ⟨B, v⟩, L.balances⟩ ∧
    (submit ⟨setNonce L.nonceAccounts np ⟨B, v⟩, L.balances⟩ tx true).1 =
      Outcome.Confirmed := by
  have hR := ledgerExecute_reject_wrongname L tx np B payload ⟨A, v⟩ hins hacct hAB
  refine ⟨submit_reject_of_reject L tx true hR, ?_, ?_⟩
  · have step1 : execInstr sAuth L (Instruction.nonceAuthorize np A B) =
        match L.nonceAccounts np with
        | some ns0 =>
            if ns0.authority = A ∧ A ∈ sAuth then
              some { L with nonceAccounts := setNonce L.nonceAccounts np ⟨B, ns0.value⟩ }
            else none
        | none => none := rfl
    rw [step1, hacct]
    exact (by
      rw [if_pos ⟨rfl, hA⟩] :
      (if A = A ∧ A ∈ sAuth then
          some ({ L with nonceAccounts := setNonce L.nonceAccounts np ⟨B, v⟩ } : Ledger)
        else none)
        = some ⟨setNonce L.nonceAccounts np ⟨B, v⟩, L.balances⟩)
  · have hacct2 : (Ledger.mk (setNonce L.nonceAccounts np ⟨B, v⟩) L.balances).nonceAccounts np
        = some ⟨B, v⟩ := by
      simp [setNonce]
    obtain ⟨Lf, hLf⟩ := hpay
    have hE2 := ledgerExecute_confirmed ⟨setNonce L.nonceAccounts np ⟨B, v⟩, L.balances⟩ tx np B
      payload ⟨B, v⟩ Lf hins hacct2 hpin rfl hsigB hLf
    rw [submit_true_eq, hE2]

theorem resubmit_after_authority_rotation_witness :
    submit testLedger wrongAuthTx true = (Outcome.RejectedNoAdvance, testLedger) ∧
    execInstr [1, 3] testLedger (Instruction.nonceAuthorize 2 3 1)
      = some ⟨setNonce testLedger.nonceAccounts 2 ⟨1, 100⟩, testLedger.balances⟩ ∧
    (submit ⟨setNonce testLedger.nonceAccounts 2 ⟨1, 100⟩, testLedger.balances⟩
      wrongAuthTx true).1 = Outcome.Confirmed :=
  resubmit_after_authority_rotation testLedger wrongAuthTx 2 3 1 100
    [Instruction.transfer 1 4 10] [1, 3] rfl rfl rfl (by decide) (by decide) (by decide)
    ⟨_, rfl⟩

/-- C5: the builder sets the pinned nonce from the snapshot of the nonce
account's stored value, places the advance instruction for the pinned
nonce's account at instruction index 0, and appends all payload
instructions after it; the construction is a pure function of its
arguments (no network call). -/
theorem builder_pins_nonce_and_orders_advance_first (fp : PubKey) (na : NonceAccount)
    (auth : PubKey) (payload : List Instruction) :
    (createDurableTransaction fp na auth payload).feePayer = fp ∧
    (createDurableTransaction fp na auth payload).recentBlockhash = na.nonce ∧
    (createDurableTransaction fp na auth payload).instructions.head? =
      some (Instruction.nonceAdvance na.address auth) ∧
    (createDurableTransaction fp na auth payload).instructions =
      Instruction.nonceAdvance na.address auth :: payload :=
  ⟨rfl, rfl, rfl, rfl⟩

/-- C8 counterexample: at concrete keys, the creation code funds the new
nonce account with the fixed constant 1,500,000 lamports
(`0.0015 * LAMPORTS_PER_SOL`), which is not the minimum rent-exempt
balance for the nonce-account size. -/
theorem funding_not_min_rent_exempt_counterexample :
    createNonceAccountInstructions 1 2 3 =
      [Instruction.createAccount 1 2 1500000 NONCE_ACCOUNT_LENGTH systemProgramId,
       Instruction.nonceInitialize 2 3] ∧
    (1500000 : Nat) ≠ minimumBalanceForRentExemption NONCE_ACCOUNT_LENGTH :=
  ⟨by decide, by decide⟩

/-- C8 (amended): the creation transaction allocates storage of the
ledger-defined nonce-account size and funds it with a fixed 1,500,000
lamports (0.0015 SOL), an amount strictly above the minimum rent-exempt
balance for that size rather than equal to it, then initializes the nonce
with the given authority; one transaction, signed by the funding account
and the new nonce account's key. -/
theorem create_nonce_account_structure (payer nonceAcct authority : PubKey) :
    createNonceAccountInstructions payer nonceAcct authority =
      [Instruction.createAccount payer nonceAcct nonceFundingLamports NONCE_ACCOUNT_LENGTH
          systemProgramId,
       Instruction.nonceInitialize nonceAcct authority] ∧
    nonceFundingLamports = 1500000 ∧
    minimumBalanceForRentExemption NONCE_ACCOUNT_LENGTH < nonceFundingLamports ∧
    createNonceAccountSigners payer nonceAcct = [payer, nonceAcct] :=
  ⟨rfl, by decide, by decide, rfl⟩

/-- C10: building, signing and serializing a durable transaction is
deterministic: two runs that agree on the fee payer, the pinned nonce
value, the nonce account address, the nonce authority, the payload and
the signer set produce identical serialized outputs (in particular, the
output does not depend on any other state, such as the authority field of
the fetched nonce-account snapshot). -/
theorem build_sign_serialize_deterministic (fp1 fp2 : PubKey) (na1 na2 : NonceAccount)
    (auth1 auth2 : PubKey) (pl1 pl2 : List Instruction) (s1 s2 : List PubKey)
    (hfp : fp1 = fp2) (hnonce : na1.nonce = na2.nonce) (haddr : na1.address = na2.address)
    (hauth : auth1 = auth2) (hpl : pl1 = pl2) (hs : s1 = s2) :
    buildSignSerialize fp1 na1 auth1 pl1 s1 = buildSignSerialize fp2 na2 auth2 pl2 s2 := by
  subst hfp hauth hpl hs
  have hbuild : createDurableTransaction fp1 na1 auth1 pl1 =
      createDurableTransaction fp1 na2 auth1 pl1 := by
    unfold createDurableTransaction
    rw [hnonce, haddr]
  unfold buildSignSerialize
  rw [hbuild]

theorem build_sign_serialize_deterministic_witness :
    buildSignSerialize 1 ⟨2, 3, 100⟩ 3 [Instruction.transfer 1 4 10] [1, 3]
      = buildSignSerialize 1 ⟨2, 99, 100⟩ 3 [Instruction.transfer 1 4 10] [1, 3] :=
  build_sign_serialize_deterministic 1 1 ⟨2, 3, 100⟩ ⟨2, 99, 100⟩ 3 3
    [Instruction.transfer 1 4 10] [Instruction.transfer 1 4 10] [1, 3] [1, 3]
    rfl rfl rfl rfl rfl rfl

/-! Round-trip lemmas for the wire-format codec. -/

theorem readN_append (l r : List Nat) : readN l.length (l ++ r) = some (l, r) := by
  induction l with
  | nil => rfl
  | cons t ts ih =>
      simp [readN, ih]

theorem decodeSlots_encodeSlots (ps : List (PubKey × Option Sig)) (r : List Nat) :
    decodeSlots ps.length (encodeSlots ps ++ r) = some (ps, r) := by
  induction ps with
  | nil => rfl
  | cons p ps ih =>
      rcases p with ⟨k, s⟩
      cases s with
      | none =>
          simp [encodeSlots, encodeSlot, decodeSlots, ih]
      | some s =>
          simp [encodeSlots, encodeSlot, decodeSlots, readN_append, ih]

theorem decodeInstr_encodeInstr (i : Instruction) (r : List Nat) :
    decodeInstr (encodeInstr i ++ r) = some (i, r) := by
  cases i <;> rfl

theorem decodeInstrs_encodeInstrs (l : List Instruction) (r : List Nat) :
    decodeInstrs l.length (encodeInstrs l ++ r) = some (l, r) := by
  induction l with
  | nil => rfl
  | cons i is ih =>
      simp [encodeInstrs, decodeInstrs, decodeInstr_encodeInstr, ih]

theorem thaw_freezeRaw (tx : Transaction) : thaw (freezeRaw tx) = some tx := by
  rcases tx with ⟨fp, bh, instrs, sigs⟩
  have hI : decodeInstrs instrs.length (encodeInstrs instrs) = some (instrs, []) := by
    simpa using decodeInstrs_encodeInstrs instrs []
  simp [freezeRaw, thaw, decodeSlots_encodeSlots, hI]

/-! Number-to-digit conversion lemmas for the base58 layer. -/

theorem digitsToNatLE_nil (b : Nat) : digitsToNatLE b [] = 0 := rfl

theorem digitsToNatLE_cons (b d : Nat) (ds : List Nat) :
    digitsToNatLE b (d :: ds) = d + b * digitsToNatLE b ds := rfl

theorem natToDigitsLE_zero (b : Nat) : natToDigitsLE b 0 = [] := by
  rw [natToDigitsLE, dif_neg]
  simp

theorem digitsToNatLE_natToDigitsLE (b : Nat) (hb : 2 ≤ b) (n : Nat) :
    digitsToNatLE b (natToDigitsLE b n) = n := by
  induction n using Nat.strong_induction_on with
  | _ n ih =>
    rw [natToDigitsLE]
    by_cases hn : n = 0
    · subst hn
      rw [dif_neg (by simp)]
      rfl
    · rw [dif_pos ⟨hb, hn⟩, digitsToNatLE_cons,
        ih (n / b) (Nat.div_lt_self (Nat.pos_of_ne_zero hn) hb)]
      exact Nat.mod_add_div n b

theorem lastNZ_natToDigitsLE (b : Nat) (hb : 2 ≤ b) (n : Nat) :
    lastNZ (natToDigitsLE b n) = true := by
  induction n using Nat.strong_induction_on with
  | _ n ih =>
    rw [natToDigitsLE]
    by_cases hn : n = 0
    · rw [dif_neg (by simp [hn])]
      rfl
    · rw [dif_pos ⟨hb, hn⟩]
      by_cases hq : n / b = 0
      · have htail : natToDigitsLE b (n / b) = [] := by
          rw [natToDigitsLE, dif_neg (by simp [hq])]
        rw [htail]
        have hlt : n < b := by
          by_contra hge
          have := Nat.div_eq_zero_iff (by omega : 0 < b) |>.mp hq
          omega
        have hmod : n % b = n := Nat.mod_eq_of_lt hlt
        simp [lastNZ, hmod, hn]
      · have htail : natToDigitsLE b (n / b) = (n / b) % b :: natToDigitsLE b (n / b / b) := by
          rw [natToDigitsLE, dif_pos ⟨hb, hq⟩]
        rw [htail]
        have hstep : lastNZ (n % b :: (n / b) % b :: natToDigitsLE b (n / b / b)) =
            lastNZ ((n / b) % b :: natToDigitsLE b (n / b / b)) := rfl
        rw [hstep, ← htail]
        exact ih (n / b) (Nat.div_lt_self (Nat.pos_of_ne_zero hn) hb)

theorem digitsToNatLE_ne_zero (b : Nat) (hb : 2 ≤ b) (d : Nat) (ds : List Nat)
    (hlast : lastNZ (d :: ds) = true) : digitsToNatLE b (d :: ds) ≠ 0 := by
  induction ds generalizing d with
  | nil =>
      have hd : d ≠ 0 := by simpa [lastNZ] using hlast
      rw [digitsToNatLE_cons, digitsToNatLE_nil]
      omega
  | cons d' ds ih =>
      have hlast' : lastNZ (d' :: ds) = true := hlast
      have hm := ih d' hlast'
      rw [digitsToNatLE_cons]
      have hpos : 0 < b * digitsToNatLE b (d' :: ds) :=
        Nat.mul_pos (by omega) (Nat.pos_of_ne_zero hm)
      omega

theorem natToDigitsLE_digitsToNatLE (b : Nat) (hb : 2 ≤ b) (ds : List Nat)
    (hd : ∀ x ∈ ds, x < b) (hlast : lastNZ ds = true) :
    natToDigitsLE b (digitsToNatLE b ds) = ds := by
  induction ds with
  | nil => exact natToDigitsLE_zero b
  | cons d ds ih =>
      have hdlt : d < b := hd d (List.mem_cons_self d ds)
      have hne : digitsToNatLE b (d :: ds) ≠ 0 := digitsToNatLE_ne_zero b hb d ds hlast
      rw [natToDigitsLE, dif_pos ⟨hb, hne⟩]
      have h1 : digitsToNatLE b (d :: ds) % b = d := by
        rw [digitsToNatLE_cons, Nat.add_mul_mod_self_left]
        exact Nat.mod_eq_of_lt hdlt
      have h2 : digitsToNatLE b (d :: ds) / b = digitsToNatLE b ds := by
        rw [digitsToNatLE_cons, Nat.add_mul_div_left _ _ (by omega : 0 < b),
          Nat.div_eq_of_lt hdlt]
        exact Nat.zero_add _
      rw [h1, h2]
      cases ds with
      | nil => rw [digitsToNatLE_nil, natToDigitsLE_zero]
      | cons d' rest =>
          have hlast' : lastNZ (d' :: rest) = true := hlast
          rw [ih (fun x hx => hd x (List.mem_cons_of_mem d hx)) hlast']

theorem natToDigitsLE_lt (b : Nat) (hb : 2 ≤ b) (n : Nat) :
    ∀ d ∈ natToDigitsLE b n, d < b := by
  induction n using Nat.strong_induction_on with
  | _ n ih =>
    rw [natToDigitsLE]
    by_cases h : 2 ≤ b ∧ n ≠ 0
    · rw [dif_pos h]
      intro d hd
      rcases List.mem_cons.mp hd with h1 | h1
      · subst h1
        exact Nat.mod_lt _ (by omega)
      · exact ih (n / b) (Nat.div_lt_self (Nat.pos_of_ne_zero h.2) h.1) d h1
    · rw [dif_neg h]
      intro d hd
      exact absurd hd (List.not_mem_nil d)

theorem headNZ_append (xs ys : List Nat) (hxs : xs ≠ []) :
    headNZ (xs ++ ys) = headNZ xs := by
  cases xs with
  | nil => exact absurd rfl hxs
  | cons d ds => rfl

theorem lastNZ_eq_headNZ_reverse (l : List Nat) : lastNZ l = headNZ l.reverse := by
  induction l with
  | nil => rfl
  | cons d ds ih =>
      cases ds with
      | nil => rfl
      | cons d' rest =>
          have h1 : lastNZ (d :: d' :: rest) = lastNZ (d' :: rest) := rfl
          rw [h1, ih]
          have h2 : (d :: d' :: rest).reverse = (d' :: rest).reverse ++ [d] := by
            simp
          rw [h2, headNZ_append _ _ (by simp)]

theorem replicate_append_strip (l : List Nat) :
    List.replicate (countLeading0 l) 0 ++ stripLeading0 l = l := by
  induction l with
  | nil => rfl
  | cons d ds ih =>
      by_cases hd : d = 0
      · subst hd
        have hc : countLeading0 (0 :: ds) = countLeading0 ds + 1 := by simp [countLeading0]
        have hs : stripLeading0 (0 :: ds) = stripLeading0 ds := by simp [stripLeading0]
        rw [hc, hs, List.replicate_succ, List.cons_append, ih]
      · simp only [countLeading0, stripLeading0, if_neg hd]
        rfl

theorem headNZ_stripLeading0 (l : List Nat) : headNZ (stripLeading0 l) = true := by
  induction l with
  | nil => rfl
  | cons d ds ih =>
      by_cases hd : d = 0
      · subst hd
        simpa [stripLeading0] using ih
      · simp [stripLeading0, if_neg hd, headNZ, hd]

theorem mem_stripLeading0 (l : List Nat) : ∀ x ∈ stripLeading0 l, x ∈ l := by
  induction l with
  | nil => intro x hx; exact absurd hx (List.not_mem_nil x)
  | cons d ds ih =>
      intro x hx
      by_cases hd : d = 0
      · subst hd
        rw [show stripLeading0 (0 :: ds) = stripLeading0 ds from by simp [stripLeading0]] at hx
        exact List.mem_cons_of_mem 0 (ih x hx)
      · rw [show stripLeading0 (d :: ds) = d :: ds from by simp [stripLeading0, hd]] at hx
        exact hx

theorem countLeading0_replicate_append (z : Nat) (xs : List Nat) (hxs : headNZ xs = true) :
    countLeading0 (List.replicate z 0 ++ xs) = z ∧
    stripLeading0 (List.replicate z 0 ++ xs) = xs := by
  induction z with
  | zero =>
      simp only [List.replicate, List.nil_append]
      cases xs with
      | nil => exact ⟨rfl, rfl⟩
      | cons d ds =>
          have hd : d ≠ 0 := by simpa [headNZ] using hxs
          exact ⟨by simp [countLeading0, hd], by simp [stripLeading0, hd]⟩
  | succ z ih =>
      rw [List.replicate_succ, List.cons_append]
      obtain ⟨h1, h2⟩ := ih
      exact ⟨by simp [countLeading0, h1], by simp [stripLeading0, h2]⟩

theorem digitOfChar_charOfDigit (d : Nat) (hd : d < 58) :
    digitOfChar (charOfDigit d) = some d := by
  have hfin : ∀ i : Fin 58, digitOfChar (charOfDigit i.val) = some i.val := by decide
  exact hfin ⟨d, hd⟩

theorem digitsOfChars_map_charOfDigit (ds : List Nat) (h : ∀ d ∈ ds, d < 58) :
    digitsOfChars (ds.map charOfDigit) = some ds := by
  induction ds with
  | nil => rfl
  | cons d ds ih =>
      simp only [List.map_cons, digitsOfChars]
      rw [digitOfChar_charOfDigit d (h d (List.mem_cons_self d ds)),
        ih fun x hx => h x (List.mem_cons_of_mem d hx)]

theorem digitsOfChars_append (xs ys : List Char) (ds1 ds2 : List Nat)
    (h1 : digitsOfChars xs = some ds1) (h2 : digitsOfChars ys = some ds2) :
    digitsOfChars (xs ++ ys) = some (ds1 ++ ds2) := by
  induction xs generalizing ds1 with
  | nil =>
      have h1' : some ([] : List Nat) = some ds1 := h1
      injection h1' with h1'
      subst h1'
      simpa using h2
  | cons c cs ih =>
      simp only [digitsOfChars] at h1
      cases hc : digitOfChar c with
      | none => rw [hc] at h1; exact Option.noConfusion h1
      | some d =>
          rw [hc] at h1
          cases hcs : digitsOfChars cs with
          | none => rw [hcs] at h1; exact Option.noConfusion h1
          | some ds' =>
              rw [hcs] at h1
              have h1' : some (d :: ds') = some ds1 := h1
              injection h1' with h1'
              subst h1'
              rw [show (c :: cs) ++ ys = c :: (cs ++ ys) from rfl]
              simp only [digitsOfChars]
              rw [hc, ih ds' hcs]
              rfl

theorem digitsOfChars_replicate_one (z : Nat) :
    digitsOfChars (List.replicate z '1') = some (List.replicate z 0) := by
  induction z with
  | zero => rfl
  | succ z ih =>
      rw [List.replicate_succ, List.replicate_succ]
      simp only [digitsOfChars]
      rw [show digitOfChar '1' = some 0 from by decide, ih]

theorem decode58_encode58 (bs : List Nat) (h : ∀ x ∈ bs, x < 256) :
    decode58 (encode58 bs) = some bs := by
  have hbytes : ∀ x ∈ stripLeading0 bs, x < 256 := fun x hx => h x (mem_stripLeading0 bs x hx)
  have hheadrest : headNZ (stripLeading0 bs) = true := headNZ_stripLeading0 bs
  have hlastrev : lastNZ (stripLeading0 bs).reverse = true := by
    rw [lastNZ_eq_headNZ_reverse, List.reverse_reverse]
    exact hheadrest
  have hrev_lt : ∀ x ∈ (stripLeading0 bs).reverse, x < 256 :=
    fun x hx => hbytes x (List.mem_reverse.mp hx)
  have hback : natToDigitsLE 256 (digitsToNatBE 256 (stripLeading0 bs)) =
      (stripLeading0 bs).reverse :=
    natToDigitsLE_digitsToNatLE 256 (by omega) (stripLeading0 bs).reverse hrev_lt hlastrev
  have hd58 : ∀ d ∈ natToDigitsBE 58 (digitsToNatBE 256 (stripLeading0 bs)), d < 58 :=
    fun d hd => natToDigitsLE_lt 58 (by omega) _ d (List.mem_reverse.mp hd)
  have hmap : digitsOfChars ((natToDigitsBE 58 (digitsToNatBE 256 (stripLeading0 bs))).map
      charOfDigit) = some (natToDigitsBE 58 (digitsToNatBE 256 (stripLeading0 bs))) :=
    digitsOfChars_map_charOfDigit _ hd58
  have hall : digitsOfChars (encode58 bs) =
      some (List.replicate (countLeading0 bs) 0
        ++ natToDigitsBE 58 (digitsToNatBE 256 (stripLeading0 bs))) :=
    digitsOfChars_append _ _ _ _ (digitsOfChars_replicate_one (countLeading0 bs)) hmap
  have hhead58 : headNZ (natToDigitsBE 58 (digitsToNatBE 256 (stripLeading0 bs))) = true := by
    rw [show natToDigitsBE 58 (digitsToNatBE 256 (stripLeading0 bs)) =
        (natToDigitsLE 58 (digitsToNatBE 256 (stripLeading0 bs))).reverse from rfl,
      ← lastNZ_eq_headNZ_reverse]
    exact lastNZ_natToDigitsLE 58 (by omega) _
  obtain ⟨hc, hs⟩ := countLeading0_replicate_append (countLeading0 bs)
    (natToDigitsBE 58 (digitsToNatBE 256 (stripLeading0 bs))) hhead58
  have hnum : digitsToNatBE 58 (natToDigitsBE 58 (digitsToNatBE 256 (stripLeading0 bs))) =
      digitsToNatBE 256 (stripLeading0 bs) := by
    unfold digitsToNatBE natToDigitsBE
    rw [List.reverse_reverse]
    exact digitsToNatLE_natToDigitsLE 58 (by omega) _
  have hbytesback : natToDigitsBE 256 (digitsToNatBE 256 (stripLeading0 bs)) =
      stripLeading0 bs := by
    unfold natToDigitsBE
    rw [hback, List.reverse_reverse]
  simp only [decode58, hall, hc, hs, hnum, hbytesback, replicate_append_strip bs]

/-- C6: serializing any transaction (partially signed ones included) with
`requireAllSignatures = false` and deserializing it reproduces the
identical fee payer, pinned nonce, instruction list and signature slots
(empty slots travel as placeholders and come back as empty slots), and the
base58 transport layer round-trips raw bytes exactly. -/
theorem codec_round_trip (tx : Transaction) (bs : List Nat) (h : ∀ x ∈ bs, x < 256) :
    freeze tx false = some (freezeRaw tx) ∧
    thaw (freezeRaw tx) = some tx ∧
    decode58 (encode58 bs) = some bs :=
  ⟨rfl, thaw_freezeRaw tx, decode58_encode58 bs h⟩

theorem codec_round_trip_witness :
    freeze ⟨1, 100, [Instruction.nonceAdvance 2 3, Instruction.transfer 1 4 10],
        [(1, some [9]), (3, none)]⟩ false
      = some (freezeRaw ⟨1, 100, [Instruction.nonceAdvance 2 3, Instruction.transfer 1 4 10],
        [(1, some [9]), (3, none)]⟩) ∧
    thaw (freezeRaw ⟨1, 100, [Instruction.nonceAdvance 2 3, Instruction.transfer 1 4 10],
        [(1, some [9]), (3, none)]⟩)
      = some ⟨1, 100, [Instruction.nonceAdvance 2 3, Instruction.transfer 1 4 10],
        [(1, some [9]), (3, none)]⟩ ∧
    decode58 (encode58 [0, 255, 7]) = some [0, 255, 7] :=
  codec_round_trip
    ⟨1, 100, [Instruction.nonceAdvance 2 3, Instruction.transfer 1 4 10],
      [(1, some [9]), (3, none)]⟩
    [0, 255, 7] (by decide)

/-- C9 counterexample: fetching an address that holds no account produces
the untyped null-assertion runtime error, not the typed `AccountNotFound`
error the claim names. -/
theorem fetch_missing_account_not_typed_counterexample :
    fetchNonceAccount (fun _ => none) 5 = Except.error FetchError.TypeErrorNullAssert ∧
    fetchNonceAccount (fun _ => none) 5 ≠ Except.error FetchError.AccountNotFound := by
  refine ⟨rfl, ?_⟩
  intro hq
  have h1 : fetchNonceAccount (fun _ => none) 5 =
      Except.error FetchError.TypeErrorNullAssert := rfl
  rw [h1] at hq
  injection hq with hq
  exact FetchError.noConfusion hq

/-- C9 (amended): the fetch path fails whenever the address holds no
account or the data is not nonce-account-shaped, but the missing-account
failure is the untyped null-assertion error (from `accountInfo!.data`) and
the malformed-data failure is a decode error; the typed `AccountNotFound`
error is never produced. -/
theorem fetch_error_behavior (g : PubKey → Option (List Nat)) (addr : PubKey) :
    (g addr = none →
      fetchNonceAccount g addr = Except.error FetchError.TypeErrorNullAssert) ∧
    (∀ d, g addr = some d → ¬(d.length = NONCE_ACCOUNT_LENGTH ∧ ∀ x ∈ d, x < 256) →
      fetchNonceAccount g addr = Except.error FetchError.MalformedData) ∧
    ∀ e, fetchNonceAccount g addr = Except.error e → e ≠ FetchError.AccountNotFound := by
  refine ⟨?_, ?_, ?_⟩
  · intro hg
    unfold fetchNonceAccount
    rw [hg]
  · intro d hg hbad
    unfold fetchNonceAccount
    rw [hg]
    have hmal : nonceAccountFromAccountData addr d = Except.error FetchError.MalformedData := by
      unfold nonceAccountFromAccountData
      rw [if_neg hbad]
    exact hmal
  · intro e he hq
    subst hq
    unfold fetchNonceAccount at he
    cases hg : g addr with
    | none =>
        rw [hg] at he
        have he' : Except.error (α := NonceAccount) FetchError.TypeErrorNullAssert =
            Except.error FetchError.AccountNotFound := he
        injection he' with he'
        exact FetchError.noConfusion he'
    | some d =>
        rw [hg] at he
        have he' : nonceAccountFromAccountData addr d =
            Except.error FetchError.AccountNotFound := he
        unfold nonceAccountFromAccountData at he'
        by_cases hcond : d.length = NONCE_ACCOUNT_LENGTH ∧ ∀ x ∈ d, x < 256
        · rw [if_pos hcond] at he'
          exact Except.noConfusion he'
        · rw [if_neg hcond] at he'
          injection he' with he'
          exact FetchError.noConfusion he'

theorem fetch_error_behavior_witness :
    fetchNonceAccount (fun _ => none) 7 = Except.error FetchError.TypeErrorNullAssert ∧
    fetchNonceAccount (fun _ => some [1, 2, 3]) 7 = Except.error FetchError.MalformedData :=
  ⟨(fetch_error_behavior (fun _ => none) 7).1 rfl,
   (fetch_error_behavior (fun _ => some [1, 2, 3]) 7).2.1 [1, 2, 3] rfl (by decide)⟩

end DurableNonce
